import Mathlib

/-!
Verification of the Chocoflan pipeline (`src/lang.py`): a lexer for a small
postfix language, a recursive-descent parser that emits bytecode, and a
stack virtual machine executing that bytecode.

Modelling conventions:
* Python's cursor `(src, i)` into the source text is represented by the
  remaining suffix `rem = src[i:]` together with the absolute offset `pos = i`;
  the Python lexer only ever reads `src[i:]`, so the two views coincide and
  all recursions become structural.
* The Python operand stack is a list with its top at the head (Python appends
  and pops at the end of its list).
* Python exceptions become `Except` values.  Error messages are kept verbatim
  (apostrophes written with the `\x27` escape).  Pushing a non-integer
  `PUSH` operand or loading/storing with a non-string operand, which is
  impossible for parser-produced code, is modelled as a `typeErr` failure
  standing in for Python's dynamic `TypeError` behaviour.
* Python's arbitrary-precision `int` is `Int`; `//` is `Int.fdiv`
  (floor division).
-/

set_option maxHeartbeats 1600000

namespace Chocoflan

/-- Python `str.isspace` on the ASCII range, where it accepts exactly
`'\t'`, `'\n'`, `'\x0b'`, `'\x0c'`, `'\r'`, `'\x1c'`–`'\x1f'` and `' '`.
Beyond ASCII, Python also accepts `'\x85'`, `'\xa0'` and the Unicode space
separators; the embedding does not model those code points, so theorems
about the lexer's character classification carry an explicit ASCII
hypothesis on the input. -/
def pyIsSpace (c : Char) : Bool :=
  c = ' ' || c = '\t' || c = '\n' || c = '\r' || c = '\x0b' || c = '\x0c' ||
    c = '\x1c' || c = '\x1d' || c = '\x1e' || c = '\x1f'

/-- Python `str.isalpha` on the ASCII range, where it accepts exactly
`'A'`–`'Z'` and `'a'`–`'z'`.  Beyond ASCII, Python also accepts Unicode
letters such as `'é'` (which the source therefore lexes into identifiers);
the embedding does not model those code points — see the ASCII hypothesis
on the classification theorems. -/
def pyIsAlpha (c : Char) : Bool := c.isAlpha

/-- Python `str.isdigit` on the ASCII range, where it accepts exactly
`'0'`–`'9'`.  Beyond ASCII, Python also accepts Unicode digits such as
`'²'` or `'٣'` (which the source therefore sends to the number branch);
the embedding does not model those code points — see the ASCII hypothesis
on the classification theorems. -/
def pyIsDigit (c : Char) : Bool := c.isDigit

/-- Python `str.isalnum` on the ASCII range (letters and digits; the
same non-ASCII caveat as `pyIsAlpha` and `pyIsDigit` applies). -/
def pyIsAlnum (c : Char) : Bool := pyIsAlpha c || pyIsDigit c

/-- The dynamically typed payload of a token or an instruction operand:
Python's `None`, an `int`, a `str`, or a single character. -/
inductive Val where
  | vnone : Val
  | vint : Int → Val
  | vstr : String → Val
  | vchr : Char → Val
  deriving DecidableEq, Repr

/-- `class Token`: a kind tag (Python uses plain strings such as `"NUMBER"`),
a payload and the source offset of the first character of the lexeme. -/
structure Token where
  type : String
  val : Val
  pos : Nat
  deriving DecidableEq, Repr

/-- `class Lexer`: cursor state.  `rem` is the not-yet-consumed suffix of the
source and `pos` its absolute offset (`src[pos:] = rem`). -/
structure Lexer where
  rem : List Char
  pos : Nat
  deriving DecidableEq, Repr

/-- `Lexer(src)`: cursor at the start of the text. -/
def Lexer.init (src : String) : Lexer := ⟨src.data, 0⟩

/-- `Lexer.peek`: the character under the cursor, `'\0'` at end of input. -/
def Lexer.peek (l : Lexer) : Char :=
  match l.rem with
  | [] => '\x00'
  | c :: _ => c

/-- `Lexer.consume_ws`: skip the maximal run of whitespace characters. -/
def Lexer.consume_ws (l : Lexer) : Lexer :=
  ⟨l.rem.dropWhile pyIsSpace, l.pos + (l.rem.takeWhile pyIsSpace).length⟩

/-- Python `str.lower` on ASCII text (by characters, avoiding byte positions). -/
def pyLower (s : String) : String := ⟨s.data.map Char.toLower⟩

/-- `Lexer.KEYWORDS.get(s)`. -/
def keywordGet (s : String) : Option String :=
  if s = "main" then some "MAIN"
  else if s = "end" then some "END"
  else if s = "def" then some "DEF"
  else none

/-- Python `int(s)` on a string of decimal digits. -/
def intOfDigits (cs : List Char) : Nat :=
  cs.foldl (fun a c => 10 * a + (c.toNat - 48)) 0

/-- The identifier-continuation predicate `peek().isalnum() or peek() == '_'`. -/
def identCont (c : Char) : Bool := pyIsAlnum c || c = '_'

/-- `Lexer.next_token`: skip whitespace, then produce one token and the
advanced cursor. -/
def Lexer.next_token (l0 : Lexer) : Token × Lexer :=
  let l := l0.consume_ws
  let ch := l.peek
  let pos := l.pos
  if ch = '\x00' then
    (⟨"EOF", Val.vnone, pos⟩, l)
  else if pyIsAlpha ch || ch = '_' then
    let lex := l.rem.takeWhile identCont
    let text : String := ⟨lex⟩
    let l' : Lexer := ⟨l.rem.dropWhile identCont, l.pos + lex.length⟩
    match keywordGet (pyLower text) with
    | some kw => (⟨kw, Val.vstr text, pos⟩, l')
    | none => (⟨"IDENT", Val.vstr text, pos⟩, l')
  else if pyIsDigit ch then
    let lex := l.rem.takeWhile pyIsDigit
    let l' : Lexer := ⟨l.rem.dropWhile pyIsDigit, l.pos + lex.length⟩
    (⟨"NUMBER", Val.vint (intOfDigits lex), pos⟩, l')
  else
    let l' : Lexer := ⟨l.rem.tail, l.pos + 1⟩
    if ch = '+' then (⟨"ADD", Val.vstr "+", pos⟩, l')
    else if ch = '-' then (⟨"SUB", Val.vstr "-", pos⟩, l')
    else if ch = '*' then (⟨"MUL", Val.vstr "*", pos⟩, l')
    else if ch = '/' then (⟨"DIV", Val.vstr "/", pos⟩, l')
    else (⟨"ERROR", Val.vchr ch, pos⟩, l')

instance {ε α : Type} [DecidableEq ε] [DecidableEq α] :
    DecidableEq (Except ε α) := fun x y =>
  match x, y with
  | .ok a, .ok b =>
    if h : a = b then .isTrue (by rw [h]) else .isFalse (by simp [h])
  | .error a, .error b =>
    if h : a = b then .isTrue (by rw [h]) else .isFalse (by simp [h])
  | .ok _, .error _ => .isFalse (by simp)
  | .error _, .ok _ => .isFalse (by simp)

/-- A bytecode instruction: the Python pair `(op, arg)` with `op` a tag
string and `arg` defaulting to `None`. -/
structure Instr where
  op : String
  arg : Val
  deriving DecidableEq, Repr

/-- Python's `SyntaxError` raised by `Parser.error`: the message together
with the offending lookahead token (whose `pos` the message reports). -/
structure SynError where
  msg : String
  tok : Token
  deriving DecidableEq, Repr

/-- `class Parser`: the lexer being pulled from, the single lookahead token
`cur`, and the accumulated instruction list `code`. -/
structure Parser where
  lexer : Lexer
  cur : Token
  code : List Instr
  deriving DecidableEq, Repr

/-- `Parser(lexer)`: fetch the first lookahead token; empty code list. -/
def Parser.init (lx : Lexer) : Parser :=
  let p := lx.next_token
  ⟨p.2, p.1, []⟩

/-- `Parser.match(typ)` (named `matchTok`: `match` is reserved in Lean): on a
kind match advance the lookahead and report success, else leave the state
unchanged. -/
def Parser.matchTok (p : Parser) (typ : String) : Bool × Parser :=
  if p.cur.type = typ then
    let t := p.lexer.next_token
    (true, { p with lexer := t.2, cur := t.1 })
  else
    (false, p)

/-- `Parser.expect(typ)`: `match` or raise a `SyntaxError`. -/
def Parser.expect (p : Parser) (typ : String) : Except SynError Parser :=
  let r := p.matchTok typ
  if r.1 then .ok r.2
  else .error ⟨"Expected " ++ typ, r.2.cur⟩

/-- `Parser.emit(op, arg)`: append one instruction. -/
def Parser.emit (p : Parser) (op : String) (arg : Val) : Parser :=
  { p with code := p.code ++ [⟨op, arg⟩] }

/-- `Parser.expression`: one postfix item, emitting its instruction.
In the source the error message `Identifier after 'def'` is written with
apostrophes; they are kept here via `\x27` escapes. -/
def Parser.expression (p : Parser) : Except SynError Parser :=
  let t := p.cur.type
  if t = "NUMBER" then
    let val := p.cur.val
    .ok (((p.matchTok "NUMBER").2).emit "PUSH" val)
  else if t = "IDENT" then
    let name := p.cur.val
    .ok (((p.matchTok "IDENT").2).emit "LOAD" name)
  else if t = "DEF" then
    let p1 := (p.matchTok "DEF").2
    if p1.cur.type = "IDENT" then
      let name := p1.cur.val
      .ok (((p1.matchTok "IDENT").2).emit "STORE" name)
    else
      .error ⟨"Identifier after \x27def\x27", p1.cur⟩
  else if t = "ADD" ∨ t = "SUB" ∨ t = "MUL" ∨ t = "DIV" then
    .ok (((p.matchTok t).2).emit t Val.vnone)
  else
    .error ⟨"Unexpected token in expression", p.cur⟩

/-- Termination measure for the `code_block` loop: the length of the
unconsumed input plus one for a not-yet-consumed lookahead token.  Every
successful `expression` strictly decreases it. -/
def Parser.fuelOf (p : Parser) : Nat :=
  p.lexer.rem.length + (if p.cur.type = "EOF" then 0 else 1)

/-- The `code_block` loop, structurally recursive on an explicit fuel
argument.  `Parser.code_block` runs it with provably sufficient fuel, and
`code_block_eq` below recovers the exact loop of the source. -/
def codeBlockAux : Nat → Parser → Except SynError Parser
  | 0, p => .error ⟨"fuel exhausted (unreachable)", p.cur⟩
  | n + 1, p =>
    if p.cur.type = "END" ∨ p.cur.type = "EOF" then .ok p
    else
      match p.expression with
      | .error e => .error e
      | .ok p' => codeBlockAux n p'

/-- `Parser.code_block`: `while cur.type not in ("END", "EOF"): expression()`. -/
def Parser.code_block (p : Parser) : Except SynError Parser :=
  codeBlockAux (p.fuelOf + 1) p

/-- `Parser.program`: `(MAIN code END | code) EOF`, then append `HALT` and
return the instruction list. -/
def Parser.program (p0 : Parser) : Except SynError (List Instr) := do
  let p1 ←
    if p0.cur.type = "MAIN" then do
      let p := (p0.matchTok "MAIN").2
      let p ← p.code_block
      p.expect "END"
    else
      p0.code_block
  let p2 ← p1.expect "EOF"
  .ok ((p2.emit "HALT" Val.vnone).code)

/-- Lex and parse a source string: `Parser(Lexer(src)).program()`. -/
def parse (src : String) : Except SynError (List Instr) :=
  (Parser.init (Lexer.init src)).program

/-- The VM's failure taxonomy: Python's `RuntimeError` (stack underflow,
unknown opcode), `NameError` (undefined identifier) and `ZeroDivisionError`,
each with its message; `typeErr` models Python's dynamic typing failures for
ill-formed operands (unreachable from parser-produced code). -/
inductive VMError where
  | runtime : String → VMError
  | nameError : String → VMError
  | zeroDiv : String → VMError
  | typeErr : VMError
  deriving DecidableEq, Repr

/-- Python dict lookup `env[name]` / `name in env` on the insertion-ordered
association list. -/
def envGet (env : List (String × Int)) (k : String) : Option Int :=
  match env with
  | [] => none
  | (k', v) :: rest => if k' = k then some v else envGet rest k

/-- Python dict assignment `env[name] = val`: overwrite in place, or append
a fresh key at the end. -/
def envSet (env : List (String × Int)) (k : String) (v : Int) :
    List (String × Int) :=
  match env with
  | [] => [(k, v)]
  | (k', v') :: rest =>
    if k' = k then (k, v) :: rest else (k', v') :: envSet rest k v

/-- `class VM`: the immutable program plus the mutable program counter,
operand stack (top at the head) and environment. -/
structure VMState where
  code : List Instr
  pc : Nat
  stack : List Int
  env : List (String × Int)
  deriving DecidableEq, Repr

/-- `VM(code)`: fresh state. -/
def VMState.init (code : List Instr) : VMState := ⟨code, 0, [], []⟩

/-- `VM.pop1`: pop the top of the stack or raise a stack underflow. -/
def pop1 (stack : List Int) : Except VMError (Int × List Int) :=
  match stack with
  | [] => .error (.runtime "Stack underflow: need one operand")
  | v :: rest => .ok (v, rest)

/-- `VM.pop2`: pop `b` then `a` (so `a` is the deeper value) or raise a
stack underflow. -/
def pop2 (stack : List Int) : Except VMError (Int × Int × List Int) :=
  match stack with
  | b :: a :: rest => .ok (a, b, rest)
  | _ => .error (.runtime "Stack underflow: need two operands")

/-- The outcome of one iteration of the `VM.run` loop: the loop stopped
(fell off the end or dispatched `HALT`), advanced to the next instruction,
or raised. -/
inductive StepRes where
  | halted : VMState → StepRes
  | stepped : VMState → StepRes
  | failed : VMError → VMState → StepRes
  deriving DecidableEq, Repr

/-- One iteration of `VM.run`: if `pc` is in range, fetch `code[pc]`,
increment `pc`, and dispatch on the opcode exactly as the source's
`if`/`elif` chain does. -/
def VMState.step (s : VMState) : StepRes :=
  match s.code[s.pc]? with
  | none => .halted s
  | some instr =>
    let s1 : VMState := { s with pc := s.pc + 1 }
    if instr.op = "HALT" then
      .halted s1
    else if instr.op = "PUSH" then
      match instr.arg with
      | .vint n => .stepped { s1 with stack := n :: s1.stack }
      | _ => .failed .typeErr s1
    else if instr.op = "LOAD" then
      match instr.arg with
      | .vstr name =>
        match envGet s1.env name with
        | none =>
          .failed (.nameError ("Undefined identifier \x27" ++ name ++ "\x27")) s1
        | some v => .stepped { s1 with stack := v :: s1.stack }
      | _ => .failed .typeErr s1
    else if instr.op = "STORE" then
      match instr.arg with
      | .vstr name =>
        match pop1 s1.stack with
        | .error e => .failed e s1
        | .ok (v, rest) =>
          .stepped { s1 with stack := rest, env := envSet s1.env name v }
      | _ => .failed .typeErr s1
    else if instr.op = "ADD" then
      match pop2 s1.stack with
      | .error e => .failed e s1
      | .ok (a, b, rest) => .stepped { s1 with stack := (a + b) :: rest }
    else if instr.op = "SUB" then
      match pop2 s1.stack with
      | .error e => .failed e s1
      | .ok (a, b, rest) => .stepped { s1 with stack := (a - b) :: rest }
    else if instr.op = "MUL" then
      match pop2 s1.stack with
      | .error e => .failed e s1
      | .ok (a, b, rest) => .stepped { s1 with stack := (a * b) :: rest }
    else if instr.op = "DIV" then
      match pop2 s1.stack with
      | .error e => .failed e s1
      | .ok (a, b, rest) =>
        if b = 0 then .failed (.zeroDiv "Division by zero") { s1 with stack := rest }
        else .stepped { s1 with stack := Int.fdiv a b :: rest }
    else
      .failed (.runtime ("Unknown opcode " ++ instr.op)) s1

/-- The `VM.run` loop, structurally recursive on fuel; since `pc` increases
by one per iteration, `code.length - pc` is always enough fuel.  The fuel-0
fallback is unreachable (`run_eq` below recovers the exact loop). -/
def runAux : Nat → VMState → Except (VMError × VMState) VMState
  | 0, s => .ok s
  | n + 1, s =>
    match s.step with
    | .halted s' => .ok s'
    | .failed e s' => .error (e, s')
    | .stepped s' => runAux n s'

/-- `VM.run`: iterate `step` until the machine halts or raises; on a raise
the state at the moment of the raise is returned with the error. -/
def VMState.run (s : VMState) : Except (VMError × VMState) VMState :=
  runAux (s.code.length - s.pc) s

/-- Whether a run outcome is a `ZeroDivisionError`. -/
def isZeroDivOutcome (r : Except (VMError × VMState) VMState) : Bool :=
  match r with
  | .error (.zeroDiv _, _) => true
  | _ => false

/-- A failure of the whole pipeline: a parse error, or a VM error together
with the VM state at the moment of the raise. -/
inductive Failure where
  | syn : SynError → Failure
  | vm : VMError → VMState → Failure
  deriving DecidableEq, Repr

/-- `compile_and_run(src)`: lex, parse, execute; the final VM state carries
the data the source prints (bytecode, env, stack, result = top of stack). -/
def compile_and_run (src : String) : Except Failure VMState :=
  match parse src with
  | .error e => .error (.syn e)
  | .ok bytecode =>
    match (VMState.init bytecode).run with
    | .error (e, s) => .error (.vm e s)
    | .ok s => .ok s

/-- The single `HALT` instruction the parser appends. -/
def haltInstr : Instr := ⟨"HALT", Val.vnone⟩

/-- An item of a postfix expression as in the claims: a non-negative integer
literal or one of the four binary operators (no identifiers). -/
inductive PItem where
  | num : Nat → PItem
  | add : PItem
  | sub : PItem
  | mul : PItem
  | div : PItem
  deriving DecidableEq, Repr

/-- The ASCII digit character for `d < 10`. -/
def digitChar (d : Nat) : Char := Char.ofNat (48 + d)

/-- The decimal rendering of a natural number, most significant digit
first. -/
def natChars (n : Nat) : List Char :=
  if n = 0 then ['0'] else (Nat.digits 10 n).reverse.map digitChar

/-- The source text of one item. -/
def PItem.render : PItem → List Char
  | .num n => natChars n
  | .add => ['+']
  | .sub => ['-']
  | .mul => ['*']
  | .div => ['/']

/-- The source text of a postfix expression: items separated (and here
uniformly followed) by a single space. -/
def renderItems : List PItem → List Char
  | [] => []
  | x :: xs => x.render ++ ' ' :: renderItems xs

/-- The token kind the lexer produces for an item. -/
def PItem.tokType : PItem → String
  | .num _ => "NUMBER"
  | .add => "ADD"
  | .sub => "SUB"
  | .mul => "MUL"
  | .div => "DIV"

/-- The token payload the lexer produces for an item. -/
def PItem.tokVal : PItem → Val
  | .num n => .vint n
  | .add => .vstr "+"
  | .sub => .vstr "-"
  | .mul => .vstr "*"
  | .div => .vstr "/"

/-- The instruction the parser emits for an item. -/
def instrOf : PItem → Instr
  | .num n => ⟨"PUSH", .vint n⟩
  | .add => ⟨"ADD", Val.vnone⟩
  | .sub => ⟨"SUB", Val.vnone⟩
  | .mul => ⟨"MUL", Val.vnone⟩
  | .div => ⟨"DIV", Val.vnone⟩

/-- Reference semantics, written from the spec's words: one step of standard
left-to-right postfix evaluation on a stack (top at the head).  A literal is
pushed; an operator pops the right operand `b` then the left operand `a` and
pushes `a ∘ b`, with floor division for `/`; underflow or division by zero
yields `none`. -/
def rpnStep (st : List Int) (x : PItem) : Option (List Int) :=
  match x with
  | .num n => some ((n : Int) :: st)
  | .add =>
    match st with
    | b :: a :: rest => some ((a + b) :: rest)
    | _ => none
  | .sub =>
    match st with
    | b :: a :: rest => some ((a - b) :: rest)
    | _ => none
  | .mul =>
    match st with
    | b :: a :: rest => some ((a * b) :: rest)
    | _ => none
  | .div =>
    match st with
    | b :: a :: rest => if b = 0 then none else some (Int.fdiv a b :: rest)
    | _ => none

/-- Reference semantics, written from the spec's words: left-to-right
evaluation of a postfix expression starting from a given stack. -/
def rpnEval : List PItem → List Int → Option (List Int)
  | [], st => some st
  | x :: xs, st =>
    match rpnStep st x with
    | none => none
    | some st' => rpnEval xs st'

/-- Static well-formedness check used by the amended round-trip claim:
walking the program with the current stack depth `d` and the list of names
bound so far, every instruction must be a known opcode with a well-typed
operand, every `LOAD` must name an already-stored identifier, and the stack
must never underflow.  (`HALT` stops execution, hence the walk.) -/
def staticOk : List Instr → Nat → List String → Bool
  | [], _, _ => true
  | instr :: rest, d, names =>
    match instr.op, instr.arg with
    | "HALT", _ => true
    | "PUSH", .vint _ => staticOk rest (d + 1) names
    | "LOAD", .vstr n => names.contains n && staticOk rest (d + 1) names
    | "STORE", .vstr n => decide (1 ≤ d) && staticOk rest (d - 1) (n :: names)
    | "ADD", _ => decide (2 ≤ d) && staticOk rest (d - 1) names
    | "SUB", _ => decide (2 ≤ d) && staticOk rest (d - 1) names
    | "MUL", _ => decide (2 ≤ d) && staticOk rest (d - 1) names
    | "DIV", _ => decide (2 ≤ d) && staticOk rest (d - 1) names
    | _, _ => false

/-- The parser-state invariant while consuming a rendered postfix
expression: the lookahead token is the head item's token and the lexer
still holds the separating space followed by the rendered remainder; at the
end the lookahead is `Eof`. -/
def ItemsInv (p : Parser) (xs : List PItem) : Prop :=
  match xs with
  | [] => p.cur.type = "EOF"
  | x :: rest =>
    p.cur.type = x.tokType ∧ p.cur.val = x.tokVal ∧
      p.lexer.rem = ' ' :: renderItems rest

example :
    (Lexer.init "10 def x").next_token =
      (⟨"NUMBER", Val.vint 10, 0⟩, ⟨[' ', 'd', 'e', 'f', ' ', 'x'], 2⟩) := by
  decide

example :
    ((Lexer.init "main x").next_token).1 = ⟨"MAIN", Val.vstr "main", 0⟩ := by
  decide

example :
    ((Lexer.init "  % ").next_token).1 = ⟨"ERROR", Val.vchr '%', 2⟩ := by
  decide

example :
    parse "1 2 +" =
      .ok [⟨"PUSH", Val.vint 1⟩, ⟨"PUSH", Val.vint 2⟩, ⟨"ADD", Val.vnone⟩,
        ⟨"HALT", Val.vnone⟩] := by
  decide

example :
    parse "main 10 3 - end" =
      .ok [⟨"PUSH", Val.vint 10⟩, ⟨"PUSH", Val.vint 3⟩, ⟨"SUB", Val.vnone⟩,
        ⟨"HALT", Val.vnone⟩] := by
  decide

example :
    parse "10 def x   x 2 *" =
      .ok [⟨"PUSH", Val.vint 10⟩, ⟨"STORE", Val.vstr "x"⟩,
        ⟨"LOAD", Val.vstr "x"⟩, ⟨"PUSH", Val.vint 2⟩, ⟨"MUL", Val.vnone⟩,
        ⟨"HALT", Val.vnone⟩] := by
  decide

example : (parse "def 5").isOk = false := by decide

example : (parse "main 1 2 +").isOk = false := by decide

example :
    compile_and_run "2 2 + 5 *" =
      .ok ⟨[⟨"PUSH", Val.vint 2⟩, ⟨"PUSH", Val.vint 2⟩, ⟨"ADD", Val.vnone⟩,
        ⟨"PUSH", Val.vint 5⟩, ⟨"MUL", Val.vnone⟩, ⟨"HALT", Val.vnone⟩],
        6, [20], []⟩ := by
  decide

example :
    compile_and_run "main 10 3 - 2 * end" =
      .ok ⟨[⟨"PUSH", Val.vint 10⟩, ⟨"PUSH", Val.vint 3⟩, ⟨"SUB", Val.vnone⟩,
        ⟨"PUSH", Val.vint 2⟩, ⟨"MUL", Val.vnone⟩, ⟨"HALT", Val.vnone⟩],
        6, [14], []⟩ := by
  decide

example :
    compile_and_run "5 0 /" =
      .error (.vm (.zeroDiv "Division by zero")
        ⟨[⟨"PUSH", Val.vint 5⟩, ⟨"PUSH", Val.vint 0⟩, ⟨"DIV", Val.vnone⟩,
          ⟨"HALT", Val.vnone⟩], 3, [], []⟩) := by
  decide

example :
    compile_and_run "x" =
      .error (.vm (.nameError "Undefined identifier \x27x\x27")
        ⟨[⟨"LOAD", Val.vstr "x"⟩, ⟨"HALT", Val.vnone⟩], 1, [], []⟩) := by
  decide

example :
    compile_and_run "+" =
      .error (.vm (.runtime "Stack underflow: need two operands")
        ⟨[⟨"ADD", Val.vnone⟩, ⟨"HALT", Val.vnone⟩], 1, [], []⟩) := by
  decide

/-! ### Generic list facts -/

theorem length_dropWhile_le {α : Type} (p : α → Bool) :
    ∀ l : List α, (l.dropWhile p).length ≤ l.length := by
  intro l
  induction l with
  | nil => simp
  | cons c cs ih =>
    rw [List.dropWhile_cons]
    split
    · exact Nat.le_trans ih (Nat.le_succ _)
    · exact Nat.le_refl _

/-! ### Unfolding the VM loop -/

/-- A `stepped` outcome advances `pc` by exactly one over the same program,
and only arises with `pc` in range. -/
theorem step_stepped {s s' : VMState} (h : s.step = .stepped s') :
    s'.code = s.code ∧ s'.pc = s.pc + 1 ∧ s.pc < s.code.length := by
  have hlt : s.pc < s.code.length := by
    by_contra hc
    have hnone : s.code[s.pc]? = none :=
      List.getElem?_eq_none (Nat.le_of_not_lt hc)
    unfold VMState.step at h
    rw [hnone] at h
    exact StepRes.noConfusion h
  refine ⟨?_, ?_, hlt⟩ <;>
  · simp only [VMState.step] at h
    repeat' split at h
    all_goals
      first
      | exact StepRes.noConfusion h
      | (injection h with h; subst h; rfl)

/-- One unfolding of `VM.run`: the loop body of the source. -/
theorem run_eq (s : VMState) :
    s.run =
      (match s.step with
       | .halted s' => .ok s'
       | .failed e s' => .error (e, s')
       | .stepped s' => s'.run) := by
  unfold VMState.run
  cases hn : s.code.length - s.pc with
  | zero =>
    have hge : s.code.length ≤ s.pc := Nat.le_of_sub_eq_zero hn
    have hstep : s.step = .halted s := by
      unfold VMState.step
      rw [List.getElem?_eq_none hge]
    rw [hstep]
    rfl
  | succ k =>
    simp only [runAux]
    cases hstep : s.step with
    | halted s' => rfl
    | failed e s' => rfl
    | stepped s' =>
      obtain ⟨hc, hp, hlt⟩ := step_stepped hstep
      have hk : s'.code.length - s'.pc = k := by
        rw [hc, hp]
        omega
      show runAux k s' = runAux (s'.code.length - s'.pc) s'
      rw [hk]

/-! ### Unfolding the parser loop -/

theorem consume_ws_rem (l : Lexer) :
    (l.consume_ws).rem = l.rem.dropWhile pyIsSpace := rfl

theorem consume_ws_le (l : Lexer) :
    (l.consume_ws).rem.length ≤ l.rem.length :=
  length_dropWhile_le _ _

theorem peek_of_rem_cons {l : Lexer} {c : Char} {cs : List Char}
    (h : l.rem = c :: cs) : l.peek = c := by
  simp [Lexer.peek, h]

theorem peek_of_rem_nil {l : Lexer} (h : l.rem = []) : l.peek = '\x00' := by
  simp [Lexer.peek, h]

/-- Fetching a token never lengthens the unconsumed input. -/
theorem next_token_rem_le (l : Lexer) :
    (l.next_token).2.rem.length ≤ l.rem.length := by
  have hws := consume_ws_le l
  simp only [Lexer.next_token]
  split
  · exact hws
  · split
    · split <;>
      · simp only
        exact Nat.le_trans (length_dropWhile_le _ _) hws
    · split
      · simp only
        exact Nat.le_trans (length_dropWhile_le _ _) hws
      · have htail : (l.consume_ws).rem.tail.length ≤ (l.consume_ws).rem.length :=
          Nat.le_trans (by cases (l.consume_ws).rem <;> simp) (Nat.le_refl _)
        split <;> (try split) <;> (try split) <;> (try split) <;>
          exact Nat.le_trans htail hws

/-- Fetching a non-`EOF` token strictly consumes input. -/
theorem next_token_eof_or_lt (l : Lexer) :
    (l.next_token).1.type = "EOF" ∨
      (l.next_token).2.rem.length < l.rem.length := by
  have hws := consume_ws_le l
  simp only [Lexer.next_token]
  split
  · left
    rfl
  · rename_i hnul
    obtain ⟨c, cs, hrem⟩ : ∃ c cs, (l.consume_ws).rem = c :: cs := by
      cases hr : (l.consume_ws).rem with
      | nil => exact absurd (peek_of_rem_nil hr) hnul
      | cons c cs => exact ⟨c, cs, rfl⟩
    have hpeek : (l.consume_ws).peek = c := peek_of_rem_cons hrem
    have hlen : cs.length + 1 ≤ l.rem.length := by
      have := hws
      rw [hrem] at this
      simpa using this
    right
    split
    · rename_i halpha
      rw [hpeek] at halpha
      have hc : identCont c = true := by
        have := Bool.or_eq_true _ _ |>.mp halpha
        rcases this with ha | hu
        · simp [identCont, pyIsAlnum, ha]
        · simp [identCont, pyIsAlnum, hu]
      split <;>
      · simp only
        rw [hrem, List.dropWhile_cons, if_pos hc]
        have := length_dropWhile_le identCont cs
        omega
    · split
      · rename_i hdig
        rw [hpeek] at hdig
        simp only
        rw [hrem, List.dropWhile_cons, if_pos hdig]
        have := length_dropWhile_le pyIsDigit cs
        omega
      · have htail : (l.consume_ws).rem.tail.length < l.rem.length := by
          rw [hrem]
          simpa using hlen
        split <;> (try split) <;> (try split) <;> (try split) <;> exact htail

/-- A successful `match` on a non-`EOF` lookahead strictly decreases the
parser's fuel measure. -/
theorem matchTok_fuel {p : Parser} {typ : String}
    (hmatch : p.cur.type = typ) (hne : p.cur.type ≠ "EOF") :
    ((p.matchTok typ).2).fuelOf < p.fuelOf := by
  unfold Parser.matchTok
  rw [if_pos hmatch]
  simp only [Parser.fuelOf, if_neg hne]
  rcases next_token_eof_or_lt p.lexer with hEOF | hlt
  · rw [if_pos hEOF]
    have := next_token_rem_le p.lexer
    omega
  · have := next_token_rem_le p.lexer
    split <;> omega

theorem emit_fuel (p : Parser) (op : String) (arg : Val) :
    (p.emit op arg).fuelOf = p.fuelOf := rfl

theorem emit_cur (p : Parser) (op : String) (arg : Val) :
    (p.emit op arg).cur = p.cur := rfl

/-- A successful `expression` strictly decreases the fuel measure. -/
theorem expression_fuel {p p' : Parser} (h : p.expression = .ok p')
    (hne : p.cur.type ≠ "EOF") : p'.fuelOf < p.fuelOf := by
  simp only [Parser.expression] at h
  split at h
  · injection h with h
    subst h
    rw [emit_fuel]
    exact matchTok_fuel (by assumption) hne
  · split at h
    · injection h with h
      subst h
      rw [emit_fuel]
      exact matchTok_fuel (by assumption) hne
    · split at h
      · split at h
        · injection h with h
          subst h
          rw [emit_fuel]
          refine Nat.lt_trans (matchTok_fuel (by assumption) (by simp_all)) ?_
          exact matchTok_fuel (by assumption) hne
        · exact Except.noConfusion h
      · split at h
        · injection h with h
          subst h
          rw [emit_fuel]
          exact matchTok_fuel rfl hne
        · exact Except.noConfusion h

/-- Fuel irrelevance for the `code_block` loop: any two sufficient fuels
agree. -/
theorem codeBlockAux_congr :
    ∀ n m (p : Parser), p.fuelOf < n → p.fuelOf < m →
      codeBlockAux n p = codeBlockAux m p := by
  intro n
  induction n with
  | zero => intro m p hn; omega
  | succ n ih =>
    intro m p hn hm
    cases m with
    | zero => omega
    | succ m =>
      simp only [codeBlockAux]
      split
      · rfl
      · rename_i hstop
        cases hexp : p.expression with
        | error e => rfl
        | ok p' =>
          have hEOF : p.cur.type ≠ "EOF" := by
            intro hc
            exact hstop (Or.inr hc)
          have hlt := expression_fuel hexp hEOF
          exact ih m p' (by omega) (by omega)

/-- One unfolding of `Parser.code_block`: the loop of the source. -/
theorem code_block_eq (p : Parser) :
    p.code_block =
      (if p.cur.type = "END" ∨ p.cur.type = "EOF" then .ok p
       else
        match p.expression with
        | .error e => .error e
        | .ok p' => p'.code_block) := by
  unfold Parser.code_block
  conv_lhs => rw [codeBlockAux]
  split
  · rfl
  · rename_i hstop
    cases hexp : p.expression with
    | error e => rfl
    | ok p' =>
      have hEOF : p.cur.type ≠ "EOF" := fun hc => hstop (Or.inr hc)
      have hlt := expression_fuel hexp hEOF
      exact codeBlockAux_congr _ _ p' (by omega) (Nat.lt_succ_self _)

/-! ### Floor-division facts for C4 -/

theorem fmod_neg_bounds {a b : Int} (hb : b < 0) :
    b < a.fmod b ∧ a.fmod b ≤ 0 := by
  cases b with
  | ofNat n =>
    simp only [Int.ofNat_eq_coe] at hb
    omega
  | negSucc n =>
    cases a with
    | ofNat m =>
      cases m with
      | zero =>
        simp only [Int.fmod]
        omega
      | succ m =>
        have hm : m % (n + 1) ≤ n :=
          Nat.le_of_lt_succ (Nat.mod_lt _ (Nat.succ_pos n))
        simp only [Int.fmod, Int.subNatNat_eq_coe, Nat.succ_eq_add_one,
          Int.negSucc_eq]
        omega
    | negSucc m =>
      have hm : (m + 1) % (n + 1) ≤ n :=
        Nat.le_of_lt_succ (Nat.mod_lt _ (Nat.succ_pos n))
      simp only [Int.fmod, Int.ofNat_eq_coe, Nat.succ_eq_add_one,
        Int.negSucc_eq]
      omega

/-! ### The claims about single VM steps -/

/-- C4: with at least two values on the stack, `Div` with last-pushed top
value `b ≠ 0` and deeper value `a` pops both and pushes the floor division
`Int.fdiv a b`, whose result `q` rounds toward negative infinity
(`b*q ≤ a < b*q + b` for positive `b`, `b*q + b < a ≤ b*q` for negative
`b` — not toward zero); the second-popped deeper value `a` is the left
operand and the first-popped `b` the right one, and likewise `Sub` pushes
`a - b`. -/
theorem C4_div_sub_order_floor (code : List Instr) (pc : Nat) (a b : Int)
    (rest : List Int) (env : List (String × Int)) (arg1 arg2 : Val) :
    (code[pc]? = some ⟨"DIV", arg1⟩ → b ≠ 0 →
      VMState.step ⟨code, pc, b :: a :: rest, env⟩ =
        .stepped ⟨code, pc + 1, Int.fdiv a b :: rest, env⟩) ∧
    (code[pc]? = some ⟨"SUB", arg2⟩ →
      VMState.step ⟨code, pc, b :: a :: rest, env⟩ =
        .stepped ⟨code, pc + 1, (a - b) :: rest, env⟩) ∧
    (0 < b → b * Int.fdiv a b ≤ a ∧ a < b * Int.fdiv a b + b) ∧
    (b < 0 → b * Int.fdiv a b + b < a ∧ a ≤ b * Int.fdiv a b) := by
  refine ⟨?_, ?_, ?_, ?_⟩
  · intro hget hb
    simp [VMState.step, hget, pop2, hb]
  · intro hget
    simp [VMState.step, hget, pop2]
  · intro hb
    have h1 := Int.fdiv_add_fmod a b
    have h2 := Int.fmod_nonneg' a hb
    have h3 := Int.fmod_lt_of_pos a hb
    constructor <;> linarith
  · intro hb
    have h1 := Int.fdiv_add_fmod a b
    obtain ⟨h2, h3⟩ := fmod_neg_bounds (a := a) hb
    constructor <;> linarith

/-- C4 witness at `a = -7`, `b = 2`: the pushed quotient is `-4` (floor),
not `-3` (truncation toward zero). -/
theorem C4_div_sub_order_floor_witness :
    VMState.step ⟨[⟨"DIV", Val.vnone⟩], 0, [2, -7], []⟩ =
      .stepped ⟨[⟨"DIV", Val.vnone⟩], 1, [-4], []⟩ := by
  have h :=
    (C4_div_sub_order_floor [⟨"DIV", Val.vnone⟩] 0 (-7) 2 [] []
      Val.vnone Val.vnone).1 (by decide) (by decide)
  exact h.trans (by decide)

/-- C5: executing `Load(name)` pushes the environment's value for `name`
when the name is bound, and otherwise fails with a `NameError` whose
message names the identifier. -/
theorem C5_load_bound_or_undefined (code : List Instr) (pc : Nat)
    (stack : List Int) (env : List (String × Int)) (name : String) (v : Int)
    (hget : code[pc]? = some ⟨"LOAD", .vstr name⟩) :
    (envGet env name = some v →
      VMState.step ⟨code, pc, stack, env⟩ =
        .stepped ⟨code, pc + 1, v :: stack, env⟩) ∧
    (envGet env name = none →
      VMState.step ⟨code, pc, stack, env⟩ =
        .failed (.nameError ("Undefined identifier \x27" ++ name ++ "\x27"))
          ⟨code, pc + 1, stack, env⟩) := by
  constructor
  · intro henv
    simp [VMState.step, hget, henv]
  · intro henv
    simp [VMState.step, hget, henv]

/-- C5 witness: loading `x` from `{x: 5}` pushes `5`; loading `x` from the
empty environment fails naming `x`. -/
theorem C5_load_bound_or_undefined_witness :
    VMState.step ⟨[⟨"LOAD", Val.vstr "x"⟩], 0, [], [("x", 5)]⟩ =
      .stepped ⟨[⟨"LOAD", Val.vstr "x"⟩], 1, [5], [("x", 5)]⟩ ∧
    VMState.step ⟨[⟨"LOAD", Val.vstr "x"⟩], 0, [], []⟩ =
      .failed (.nameError "Undefined identifier \x27x\x27")
        ⟨[⟨"LOAD", Val.vstr "x"⟩], 1, [], []⟩ := by
  constructor
  · exact (C5_load_bound_or_undefined [⟨"LOAD", Val.vstr "x"⟩] 0 [] [("x", 5)]
      "x" 5 (by decide)).1 (by decide)
  · exact (C5_load_bound_or_undefined [⟨"LOAD", Val.vstr "x"⟩] 0 [] []
      "x" 5 (by decide)).2 (by decide)

/-- C6: an `Add`, `Sub`, `Mul` or `Div` with fewer than two stacked values,
and a `Store` with an empty stack, fail with the corresponding
stack-underflow `RuntimeError`. -/
theorem C6_stack_underflow (code : List Instr) (pc : Nat)
    (stack : List Int) (env : List (String × Int)) (op : String)
    (arg : Val) (name : String) :
    (code[pc]? = some ⟨op, arg⟩ →
      (op = "ADD" ∨ op = "SUB" ∨ op = "MUL" ∨ op = "DIV") →
      stack.length < 2 →
      VMState.step ⟨code, pc, stack, env⟩ =
        .failed (.runtime "Stack underflow: need two operands")
          ⟨code, pc + 1, stack, env⟩) ∧
    (code[pc]? = some ⟨"STORE", .vstr name⟩ →
      VMState.step ⟨code, pc, [], env⟩ =
        .failed (.runtime "Stack underflow: need one operand")
          ⟨code, pc + 1, [], env⟩) := by
  constructor
  · intro hget hop hlen
    have hstack : pop2 stack =
        .error (.runtime "Stack underflow: need two operands") := by
      match stack, hlen with
      | [], _ => rfl
      | [x], _ => rfl
    rcases hop with h | h | h | h <;> subst h <;>
      simp [VMState.step, hget, hstack]
  · intro hget
    simp [VMState.step, hget, pop1]

/-- C6 witness: `Add` on a one-value stack and `Store` on an empty stack
both underflow. -/
theorem C6_stack_underflow_witness :
    VMState.step ⟨[⟨"ADD", Val.vnone⟩], 0, [7], []⟩ =
      .failed (.runtime "Stack underflow: need two operands")
        ⟨[⟨"ADD", Val.vnone⟩], 1, [7], []⟩ ∧
    VMState.step ⟨[⟨"STORE", Val.vstr "x"⟩], 0, [], []⟩ =
      .failed (.runtime "Stack underflow: need one operand")
        ⟨[⟨"STORE", Val.vstr "x"⟩], 1, [], []⟩ := by
  constructor
  · exact (C6_stack_underflow [⟨"ADD", Val.vnone⟩] 0 [7] [] "ADD"
      Val.vnone "x").1 (by decide) (by decide) (by decide)
  · exact (C6_stack_underflow [⟨"STORE", Val.vstr "x"⟩] 0 [] [] "STORE"
      Val.vnone "x").2 (by decide)

/-- C10: a division-by-zero failure happens only after both operands have
been popped: the failure state's stack is the pre-instruction stack minus
its top two values, the environment is unchanged, and in particular it is
not the pre-instruction stack. -/
theorem C10_divzero_popped_state (code : List Instr) (pc : Nat) (a : Int)
    (rest : List Int) (env : List (String × Int)) (arg : Val)
    (hget : code[pc]? = some ⟨"DIV", arg⟩) :
    VMState.step ⟨code, pc, (0 : Int) :: a :: rest, env⟩ =
      .failed (.zeroDiv "Division by zero") ⟨code, pc + 1, rest, env⟩ ∧
    rest ≠ (0 : Int) :: a :: rest := by
  constructor
  · simp [VMState.step, hget, pop2]
  · intro h
    have h' := congrArg List.length h
    simp only [List.length_cons] at h'
    omega

/-- C10 witness: `5 0 /` fails with the two operands already popped. -/
theorem C10_divzero_popped_state_witness :
    VMState.step ⟨[⟨"DIV", Val.vnone⟩], 0, [0, 5], []⟩ =
      .failed (.zeroDiv "Division by zero") ⟨[⟨"DIV", Val.vnone⟩], 1, [], []⟩ ∧
    ([] : List Int) ≠ [0, 5] :=
  C10_divzero_popped_state [⟨"DIV", Val.vnone⟩] 0 5 [] [] Val.vnone (by decide)

/-- C8: compiling and running `"10 def x   x 2 *"` from an empty environment
succeeds; afterwards the environment maps exactly `x` to `10` and the final
stack is exactly `[20]`. -/
theorem C8_def_use_example :
    compile_and_run "10 def x   x 2 *" =
      .ok ⟨[⟨"PUSH", Val.vint 10⟩, ⟨"STORE", Val.vstr "x"⟩,
        ⟨"LOAD", Val.vstr "x"⟩, ⟨"PUSH", Val.vint 2⟩, ⟨"MUL", Val.vnone⟩,
        ⟨"HALT", Val.vnone⟩], 6, [20], [("x", 10)]⟩ := by
  decide

/-! ### The lexer's error-token claim -/

/-- C7 (as amended): on ASCII input — the lexical surface the spec
defines, and the range on which `pyIsSpace`/`pyIsAlpha`/`pyIsDigit`
coincide exactly with Python's `str.isspace`/`isalpha`/`isdigit` — when
the first non-whitespace character `c` under the cursor is not alphabetic,
not an underscore, not a decimal digit and not one of `+ - * /`,
`next_token` returns an `Error` token carrying `c` and does not raise —
except for the character `'\0'`, which instead yields an `Eof` token (the
lexer's end-of-input sentinel is indistinguishable from an embedded NUL).
Non-ASCII characters are classified by Python's Unicode tables (e.g. `'é'`
continues an identifier and `'\xa0'` is skipped as whitespace) and are
outside this embedding's scope. -/
theorem C7_error_token (l : Lexer) (c : Char)
    (hascii : ∀ ch ∈ l.rem, ch.toNat < 128)
    (hpeek : (l.consume_ws).peek = c)
    (halpha : pyIsAlpha c = false) (hus : c ≠ '_')
    (hdig : pyIsDigit c = false)
    (hadd : c ≠ '+') (hsub : c ≠ '-') (hmul : c ≠ '*') (hdivi : c ≠ '/')
    (hnul : c ≠ '\x00') :
    l.next_token =
      (⟨"ERROR", Val.vchr c, (l.consume_ws).pos⟩,
        ⟨(l.consume_ws).rem.tail, (l.consume_ws).pos + 1⟩) := by
  have hident : (pyIsAlpha c || c = '_') = false := by
    simp [halpha, hus]
  simp only [Lexer.next_token, hpeek]
  rw [if_neg hnul, if_neg (by simp [hident]), if_neg (by simp [hdig]),
    if_neg hadd, if_neg hsub, if_neg hmul, if_neg hdivi]

/-- C7 witness: on the ASCII input `"%"`, the stray `%` becomes an `Error`
token carrying `%`. -/
theorem C7_error_token_witness :
    Lexer.next_token ⟨['%'], 0⟩ = (⟨"ERROR", Val.vchr '%', 0⟩, ⟨[], 1⟩) := by
  have h := C7_error_token ⟨['%'], 0⟩ '%' (by decide) (by decide) (by decide)
    (by decide) (by decide) (by decide) (by decide) (by decide) (by decide)
    (by decide)
  exact h.trans (by decide)

/-- C7 counterexample: the character `'\0'` meets the claim's precondition
(not alphabetic, not an underscore, not a digit, not whitespace, not an
operator) yet `next_token` returns an `Eof` token, not an `Error` token. -/
theorem C7_nul_counterexample :
    pyIsAlpha '\x00' = false ∧ '\x00' ≠ '_' ∧ pyIsDigit '\x00' = false ∧
    pyIsSpace '\x00' = false ∧ '\x00' ≠ '+' ∧ '\x00' ≠ '-' ∧
    '\x00' ≠ '*' ∧ '\x00' ≠ '/' ∧
    (Lexer.next_token ⟨['\x00', 'x'], 0⟩).1 = ⟨"EOF", Val.vnone, 0⟩ := by
  decide

/-! ### What the parser emits -/

theorem matchTok_code (p : Parser) (typ : String) :
    ((p.matchTok typ).2).code = p.code := by
  unfold Parser.matchTok
  split <;> rfl

theorem emit_code (p : Parser) (op : String) (arg : Val) :
    (p.emit op arg).code = p.code ++ [⟨op, arg⟩] := rfl

theorem expect_code {p p' : Parser} {typ : String}
    (h : p.expect typ = .ok p') : p'.code = p.code := by
  simp only [Parser.expect] at h
  split at h
  · injection h with h
    subst h
    exact matchTok_code p typ
  · exact Except.noConfusion h

/-- A successful `expression` appends exactly one instruction, and that
instruction is never a `HALT`. -/
theorem expression_code {p p' : Parser} (h : p.expression = .ok p') :
    ∃ i : Instr, p'.code = p.code ++ [i] ∧ i.op ≠ "HALT" := by
  simp only [Parser.expression] at h
  split at h
  · injection h with h
    subst h
    refine ⟨_, by rw [emit_code, matchTok_code], ?_⟩
    simp
  · split at h
    · injection h with h
      subst h
      refine ⟨_, by rw [emit_code, matchTok_code], ?_⟩
      simp
    · split at h
      · split at h
        · injection h with h
          subst h
          refine ⟨_, by rw [emit_code, matchTok_code, matchTok_code], ?_⟩
          simp
        · exact Except.noConfusion h
      · split at h
        · rename_i hops
          injection h with h
          subst h
          refine ⟨_, by rw [emit_code, matchTok_code], ?_⟩
          rcases hops with h | h | h | h <;> simp [h]
        · exact Except.noConfusion h

/-- The `code_block` loop only appends non-`HALT` instructions. -/
theorem codeBlockAux_code :
    ∀ (n : Nat) (p p' : Parser), codeBlockAux n p = .ok p' →
      ∃ tail, p'.code = p.code ++ tail ∧ ∀ i ∈ tail, i.op ≠ "HALT" := by
  intro n
  induction n with
  | zero =>
    intro p p' h
    exact Except.noConfusion h
  | succ n ih =>
    intro p p' h
    simp only [codeBlockAux] at h
    split at h
    · injection h with h
      subst h
      exact ⟨[], by simp, by simp⟩
    · cases hexp : p.expression with
      | error e =>
        rw [hexp] at h
        exact Except.noConfusion h
      | ok p1 =>
        rw [hexp] at h
        obtain ⟨i, hc1, hne⟩ := expression_code hexp
        obtain ⟨tail, hc2, htail⟩ := ih p1 p' h
        refine ⟨i :: tail, ?_, ?_⟩
        · rw [hc2, hc1]
          simp
        · intro j hj
          rcases List.mem_cons.mp hj with hj | hj
          · subst hj
            exact hne
          · exact htail j hj

theorem except_match_ok {ε α β : Type} {x : Except ε α}
    {f : α → Except ε β} {v : β}
    (h : ((match x with
           | .error e => .error e
           | .ok a => f a : Except ε β)) = .ok v) :
    ∃ a, x = .ok a ∧ f a = .ok v := by
  cases x with
  | error e => exact Except.noConfusion h
  | ok a => exact ⟨a, rfl, h⟩

/-- A successful `program` run returns the accumulated code followed by the
non-`HALT` instructions of the code block and a single final `HALT`. -/
theorem program_halt {p0 : Parser} {code : List Instr}
    (h : p0.program = .ok code) :
    ∃ tail, code = p0.code ++ (tail ++ [haltInstr]) ∧
      ∀ i ∈ tail, i.op ≠ "HALT" := by
  unfold Parser.program at h
  simp only [bind, Except.bind] at h
  split at h
  · obtain ⟨pa, hcb, h⟩ := except_match_ok h
    obtain ⟨pb, hend, h⟩ := except_match_ok h
    obtain ⟨pf, heof, h⟩ := except_match_ok h
    injection h with h
    obtain ⟨tail, hc, ht⟩ := codeBlockAux_code _ _ _ hcb
    refine ⟨tail, ?_, ht⟩
    rw [← h, emit_code, expect_code heof, expect_code hend, hc, matchTok_code]
    simp [haltInstr]
  · obtain ⟨pa, hcb, h⟩ := except_match_ok h
    obtain ⟨pf, heof, h⟩ := except_match_ok h
    injection h with h
    obtain ⟨tail, hc, ht⟩ := codeBlockAux_code _ _ _ hcb
    refine ⟨tail, ?_, ht⟩
    rw [← h, emit_code, expect_code heof, hc]
    simp [haltInstr]

/-- C2: whenever the parse succeeds, the returned Program ends in `HALT`,
and that is the only `HALT` in the whole Program. -/
theorem C2_program_ends_in_unique_halt (src : String) (code : List Instr)
    (h : parse src = .ok code) :
    code.getLast? = some haltInstr ∧
    code.countP (fun i => i.op == "HALT") = 1 := by
  obtain ⟨tail, hcode, htail⟩ := program_halt h
  rw [show (Parser.init (Lexer.init src)).code = [] from rfl,
    List.nil_append] at hcode
  subst hcode
  constructor
  · exact List.getLast?_concat tail
  · rw [List.countP_append]
    have h0 : tail.countP (fun i => i.op == "HALT") = 0 := by
      rw [List.countP_eq_zero]
      intro i hi
      simpa using htail i hi
    rw [h0]
    rfl

/-- C2 witness at the source `"1 2 +"`. -/
theorem C2_program_ends_in_unique_halt_witness :
    ([⟨"PUSH", Val.vint 1⟩, ⟨"PUSH", Val.vint 2⟩, ⟨"ADD", Val.vnone⟩,
      ⟨"HALT", Val.vnone⟩] : List Instr).getLast? = some haltInstr ∧
    ([⟨"PUSH", Val.vint 1⟩, ⟨"PUSH", Val.vint 2⟩, ⟨"ADD", Val.vnone⟩,
      ⟨"HALT", Val.vnone⟩] : List Instr).countP (fun i => i.op == "HALT") = 1 :=
  C2_program_ends_in_unique_halt "1 2 +"
    [⟨"PUSH", Val.vint 1⟩, ⟨"PUSH", Val.vint 2⟩, ⟨"ADD", Val.vnone⟩,
      ⟨"HALT", Val.vnone⟩] (by decide)

/-! ### Whitespace-only sources -/

/-- C9: the empty source string, and any source of whitespace only, parses
to the one-instruction Program `[HALT]`, and running that Program succeeds
with an empty final stack and an empty final environment. -/
theorem C9_whitespace_program (src : String)
    (h : ∀ c ∈ src.data, pyIsSpace c) :
    parse src = .ok [haltInstr] ∧
    VMState.run (VMState.init [haltInstr]) =
      .ok ⟨[haltInstr], 1, [], []⟩ := by
  constructor
  · have hrem : (Lexer.init src).rem.dropWhile pyIsSpace = [] :=
      List.dropWhile_eq_nil_iff.mpr (fun c hc => h c hc)
    have hp : ((Lexer.init src).consume_ws).peek = '\x00' :=
      peek_of_rem_nil (by rw [consume_ws_rem]; exact hrem)
    have hnt : (Lexer.init src).next_token =
        (⟨"EOF", Val.vnone, ((Lexer.init src).consume_ws).pos⟩,
          (Lexer.init src).consume_ws) := by
      simp [Lexer.next_token, hp]
    show (Parser.init (Lexer.init src)).program = .ok [haltInstr]
    have hp0 : Parser.init (Lexer.init src) =
        ⟨(Lexer.init src).consume_ws,
          ⟨"EOF", Val.vnone, ((Lexer.init src).consume_ws).pos⟩, []⟩ := by
      unfold Parser.init
      rw [hnt]
    rw [hp0]
    simp [Parser.program, bind, Except.bind, code_block_eq, Parser.expect,
      Parser.matchTok, Parser.emit, haltInstr]
  · decide

/-- C9 witness at the one-space source. -/
theorem C9_whitespace_program_witness :
    parse " " = .ok [haltInstr] ∧
    VMState.run (VMState.init [haltInstr]) = .ok ⟨[haltInstr], 1, [], []⟩ :=
  C9_whitespace_program " " (by decide)

/-! ### The round-trip claim (C3) -/

theorem envGet_envSet (env : List (String × Int)) (k m : String) (v : Int) :
    envGet (envSet env k v) m = if m = k then some v else envGet env m := by
  induction env with
  | nil =>
    by_cases h : m = k
    · subst h
      simp [envSet, envGet]
    · simp only [envSet, envGet]
      rw [if_neg (fun hh => h hh.symm), if_neg h]
  | cons hd tl ih =>
    obtain ⟨k', v'⟩ := hd
    simp only [envSet]
    by_cases h : k' = k
    · subst h
      simp only [if_pos rfl, envGet]
      by_cases h2 : m = k'
      · subst h2
        simp
      · rw [if_neg (fun hh => h2 hh.symm), if_neg h2,
          if_neg (fun hh => h2 hh.symm)]
    · rw [if_neg h]
      simp only [envGet]
      by_cases h2 : k' = m
      · subst h2
        simp [h]
      · rw [if_neg h2, if_neg h2, ih]

theorem getElem?_append_cons {α : Type} (pre : List α) (x : α) (l : List α) :
    (pre ++ x :: l)[pre.length]? = some x := by
  rw [List.getElem?_append_right (Nat.le_refl _)]
  simp

/-- Running a statically checked suffix of the program: either the run
completes with the program counter equal to the code length, or it stops on
a division by zero. -/
theorem staticOk_run :
    ∀ (rest pre : List Instr) (stack : List Int)
      (env : List (String × Int)) (names : List String),
      staticOk rest stack.length names = true →
      (∀ n ∈ names, (envGet env n).isSome = true) →
      (∀ i ∈ (pre ++ rest).dropLast, i.op ≠ "HALT") →
      (∃ s', VMState.run ⟨pre ++ rest, pre.length, stack, env⟩ = .ok s' ∧
        s'.pc = (pre ++ rest).length) ∨
      (∃ s', VMState.run ⟨pre ++ rest, pre.length, stack, env⟩ =
        .error (.zeroDiv "Division by zero", s')) := by
  intro rest
  induction rest with
  | nil =>
    intro pre stack env names _ _ _
    left
    have hstep : VMState.step ⟨pre ++ [], pre.length, stack, env⟩ =
        .halted ⟨pre ++ [], pre.length, stack, env⟩ := by
      unfold VMState.step
      rw [List.getElem?_eq_none (by simp)]
    rw [run_eq, hstep]
    exact ⟨_, rfl, by simp⟩
  | cons instr rest' ih =>
    intro pre stack env names hstat henv hhalt
    have hget := getElem?_append_cons pre instr rest'
    have hassoc : pre ++ instr :: rest' = (pre ++ [instr]) ++ rest' := by
      simp
    have hlen1 : pre.length + 1 = (pre ++ [instr]).length := by
      simp
    simp only [staticOk] at hstat
    split at hstat
    · -- HALT: by the no-mid-halt hypothesis this is the last instruction
      rename_i hop
      cases rest' with
      | nil =>
        left
        have hstep : VMState.step ⟨pre ++ [instr], pre.length, stack, env⟩ =
            .halted ⟨pre ++ [instr], pre.length + 1, stack, env⟩ := by
          simp [VMState.step, getElem?_append_cons pre instr [], hop]
        rw [run_eq, hstep]
        exact ⟨_, rfl, by simp⟩
      | cons r rs =>
        exfalso
        refine hhalt instr ?_ hop
        rw [List.dropLast_append_cons]
        refine List.mem_append_right _ ?_
        rw [List.dropLast_cons₂]
        exact List.mem_cons_self _ _
    · -- PUSH with an integer operand
      rename_i n hop harg
      have hstep : VMState.step ⟨pre ++ instr :: rest', pre.length, stack, env⟩ =
          .stepped ⟨pre ++ instr :: rest', pre.length + 1, n :: stack, env⟩ := by
        simp [VMState.step, hget, hop, harg]
      rw [run_eq, hstep]
      simp only [hassoc, hlen1]
      exact ih (pre ++ [instr]) (n :: stack) env names hstat henv
        (by rw [← hassoc]; exact hhalt)
    · -- LOAD of a previously stored name
      rename_i nm hop harg
      rw [Bool.and_eq_true] at hstat
      obtain ⟨hmem, hstat⟩ := hstat
      have hmem' : nm ∈ names := by
        simpa [List.contains] using hmem
      obtain ⟨v, hv⟩ := Option.isSome_iff_exists.mp (henv nm hmem')
      have hstep : VMState.step ⟨pre ++ instr :: rest', pre.length, stack, env⟩ =
          .stepped ⟨pre ++ instr :: rest', pre.length + 1, v :: stack, env⟩ := by
        simp [VMState.step, hget, hop, harg, hv]
      rw [run_eq, hstep]
      simp only [hassoc, hlen1]
      exact ih (pre ++ [instr]) (v :: stack) env names hstat henv
        (by rw [← hassoc]; exact hhalt)
    · -- STORE: pops and binds
      rename_i nm hop harg
      rw [Bool.and_eq_true] at hstat
      obtain ⟨hd, hstat⟩ := hstat
      cases stack with
      | nil => simp at hd
      | cons v stack0 =>
        have hstep : VMState.step ⟨pre ++ instr :: rest', pre.length,
            v :: stack0, env⟩ =
            .stepped ⟨pre ++ instr :: rest', pre.length + 1, stack0,
              envSet env nm v⟩ := by
          simp [VMState.step, hget, hop, harg, pop1]
        rw [run_eq, hstep]
        simp only [hassoc, hlen1]
        refine ih (pre ++ [instr]) stack0 (envSet env nm v) (nm :: names)
          hstat ?_ (by rw [← hassoc]; exact hhalt)
        intro n hn
        rw [envGet_envSet]
        rcases List.mem_cons.mp hn with hn | hn
        · subst hn
          simp
        · split
          · simp
          · exact henv n hn
    · -- ADD
      rename_i hop
      rw [Bool.and_eq_true, decide_eq_true_eq] at hstat
      obtain ⟨hd, hstat⟩ := hstat
      match stack, hd with
      | b :: a :: stack0, _ =>
        have hstep : VMState.step ⟨pre ++ instr :: rest', pre.length,
            b :: a :: stack0, env⟩ =
            .stepped ⟨pre ++ instr :: rest', pre.length + 1,
              (a + b) :: stack0, env⟩ := by
          simp [VMState.step, hget, hop, pop2]
        rw [run_eq, hstep]
        simp only [hassoc, hlen1]
        exact ih (pre ++ [instr]) ((a + b) :: stack0) env names hstat henv
          (by rw [← hassoc]; exact hhalt)
    · -- SUB
      rename_i hop
      rw [Bool.and_eq_true, decide_eq_true_eq] at hstat
      obtain ⟨hd, hstat⟩ := hstat
      match stack, hd with
      | b :: a :: stack0, _ =>
        have hstep : VMState.step ⟨pre ++ instr :: rest', pre.length,
            b :: a :: stack0, env⟩ =
            .stepped ⟨pre ++ instr :: rest', pre.length + 1,
              (a - b) :: stack0, env⟩ := by
          simp [VMState.step, hget, hop, pop2]
        rw [run_eq, hstep]
        simp only [hassoc, hlen1]
        exact ih (pre ++ [instr]) ((a - b) :: stack0) env names hstat henv
          (by rw [← hassoc]; exact hhalt)
    · -- MUL
      rename_i hop
      rw [Bool.and_eq_true, decide_eq_true_eq] at hstat
      obtain ⟨hd, hstat⟩ := hstat
      match stack, hd with
      | b :: a :: stack0, _ =>
        have hstep : VMState.step ⟨pre ++ instr :: rest', pre.length,
            b :: a :: stack0, env⟩ =
            .stepped ⟨pre ++ instr :: rest', pre.length + 1,
              (a * b) :: stack0, env⟩ := by
          simp [VMState.step, hget, hop, pop2]
        rw [run_eq, hstep]
        simp only [hassoc, hlen1]
        exact ih (pre ++ [instr]) ((a * b) :: stack0) env names hstat henv
          (by rw [← hassoc]; exact hhalt)
    · -- DIV: either a division by zero surfaces, or the run continues
      rename_i hop
      rw [Bool.and_eq_true, decide_eq_true_eq] at hstat
      obtain ⟨hd, hstat⟩ := hstat
      match stack, hd with
      | b :: a :: stack0, _ =>
        by_cases hb : b = 0
        · right
          subst hb
          have hstep : VMState.step ⟨pre ++ instr :: rest', pre.length,
              (0 : Int) :: a :: stack0, env⟩ =
              .failed (.zeroDiv "Division by zero")
                ⟨pre ++ instr :: rest', pre.length + 1, stack0, env⟩ := by
            simp [VMState.step, hget, hop, pop2]
          rw [run_eq, hstep]
          exact ⟨_, rfl⟩
        · have hstep : VMState.step ⟨pre ++ instr :: rest', pre.length,
              b :: a :: stack0, env⟩ =
              .stepped ⟨pre ++ instr :: rest', pre.length + 1,
                Int.fdiv a b :: stack0, env⟩ := by
            simp [VMState.step, hget, hop, pop2, hb]
          rw [run_eq, hstep]
          simp only [hassoc, hlen1]
          exact ih (pre ++ [instr]) (Int.fdiv a b :: stack0) env names hstat
            henv (by rw [← hassoc]; exact hhalt)
    · exact absurd hstat (by simp)

/-- C3 counterexample: the one-instruction Program `[Add]` contains no
`Load` of an unbound name and no `Div` at all, yet running it raises a
stack-underflow failure — refuting the claim that the absence of undefined
loads and zero divisors alone makes a run failure-free. -/
theorem C3_roundtrip_counterexample :
    (Instr.mk "ADD" Val.vnone).op ≠ "LOAD" ∧
    (Instr.mk "ADD" Val.vnone).op ≠ "DIV" ∧
    VMState.run (VMState.init [⟨"ADD", Val.vnone⟩]) =
      .error (.runtime "Stack underflow: need two operands",
        ⟨[⟨"ADD", Val.vnone⟩], 1, [], []⟩) := by
  decide

/-- C3 (as amended): for every Program of well-formed instructions that
never underflows the stack and loads only previously stored names
(`staticOk`), in which `Halt` occurs at most as the final instruction, and
whose run performs no division by zero, running raises no failure and
terminates; the number of executed dispatch steps equals the Program's
instruction count (each dispatch increments `pc` by exactly one from `0`,
so the final `pc` is that number). -/
theorem C3_roundtrip_amended (code : List Instr)
    (hstat : staticOk code 0 [] = true)
    (hhalt : ∀ i ∈ code.dropLast, i.op ≠ "HALT")
    (hdiv : isZeroDivOutcome (VMState.run (VMState.init code)) = false) :
    ∃ s', VMState.run (VMState.init code) = .ok s' ∧
      s'.pc = code.length := by
  have h := staticOk_run code [] [] [] [] hstat (by simp) hhalt
  rcases h with h | ⟨s', hs'⟩
  · exact h
  · simp only [List.nil_append, List.length_nil] at hs'
    rw [show VMState.init code = (⟨code, 0, [], []⟩ : VMState) from rfl,
      hs'] at hdiv
    simp [isZeroDivOutcome] at hdiv

/-- C3 witness: the checked program `1 2 / HALT` runs to completion in four
dispatch steps. -/
theorem C3_roundtrip_amended_witness :
    ∃ s', VMState.run (VMState.init [⟨"PUSH", Val.vint 1⟩,
      ⟨"PUSH", Val.vint 2⟩, ⟨"DIV", Val.vnone⟩, ⟨"HALT", Val.vnone⟩]) =
        .ok s' ∧
      s'.pc = 4 :=
  C3_roundtrip_amended [⟨"PUSH", Val.vint 1⟩, ⟨"PUSH", Val.vint 2⟩,
    ⟨"DIV", Val.vnone⟩, ⟨"HALT", Val.vnone⟩] (by decide) (by decide)
    (by decide)

/-! ### Decimal rendering round-trips through the lexer -/

theorem digitChar_toNat {d : Nat} (h : d < 10) :
    (digitChar d).toNat = 48 + d := by
  interval_cases d <;> decide

theorem digitChar_props {d : Nat} (h : d < 10) :
    pyIsDigit (digitChar d) = true ∧ pyIsAlpha (digitChar d) = false ∧
    digitChar d ≠ '_' ∧ digitChar d ≠ '\x00' ∧
    pyIsSpace (digitChar d) = false := by
  interval_cases d <;> decide

theorem natChars_shape (n : Nat) :
    ∃ ds : List Nat, natChars n = ds.map digitChar ∧ ds ≠ [] ∧
      ∀ d ∈ ds, d < 10 := by
  unfold natChars
  split
  · exact ⟨[0], rfl, by simp, by simp⟩
  · rename_i hn
    refine ⟨(Nat.digits 10 n).reverse, rfl, ?_, ?_⟩
    · simp [Nat.digits_ne_nil_iff_ne_zero, hn]
    · intro d hd
      exact Nat.digits_lt_base (by norm_num) (List.mem_reverse.mp hd)

theorem intOfDigits_concat (xs : List Char) (c : Char) :
    intOfDigits (xs ++ [c]) = 10 * intOfDigits xs + (c.toNat - 48) := by
  unfold intOfDigits
  rw [List.foldl_append]
  rfl

theorem intOfDigits_rev_digits :
    ∀ n : Nat, intOfDigits ((Nat.digits 10 n).reverse.map digitChar) = n := by
  intro n
  induction n using Nat.strong_induction_on with
  | _ n ih =>
    cases Nat.eq_zero_or_pos n with
    | inl h0 =>
      subst h0
      simp [Nat.digits_zero, intOfDigits]
    | inr hpos =>
      rw [Nat.digits_def' (by norm_num : (1 : Nat) < 10) hpos]
      rw [List.reverse_cons, List.map_append]
      simp only [List.map_cons, List.map_nil]
      rw [intOfDigits_concat, ih (n / 10) (Nat.div_lt_self hpos (by norm_num)),
        digitChar_toNat (Nat.mod_lt _ (by norm_num))]
      omega

theorem intOfDigits_natChars (n : Nat) : intOfDigits (natChars n) = n := by
  unfold natChars
  split
  · rename_i h0
    subst h0
    rfl
  · exact intOfDigits_rev_digits n

theorem natChars_props (n : Nat) :
    ∀ c ∈ natChars n, pyIsDigit c = true ∧ pyIsAlpha c = false ∧
      c ≠ '_' ∧ c ≠ '\x00' ∧ pyIsSpace c = false := by
  obtain ⟨ds, hds, _, hlt⟩ := natChars_shape n
  rw [hds]
  intro c hc
  obtain ⟨d, hd, rfl⟩ := List.mem_map.mp hc
  exact digitChar_props (hlt d hd)

theorem takeWhile_append_stop (p : Char → Bool) (l1 : List Char) (c2 : Char)
    (t : List Char) (h1 : ∀ c ∈ l1, p c = true) (h2 : p c2 = false) :
    (l1 ++ c2 :: t).takeWhile p = l1 ∧
    (l1 ++ c2 :: t).dropWhile p = c2 :: t := by
  induction l1 with
  | nil =>
    simp [List.takeWhile_cons, List.dropWhile_cons, h2]
  | cons c cs ih =>
    have hc : p c = true := h1 c (List.mem_cons_self _ _)
    have hrest := ih (fun d hd => h1 d (List.mem_cons_of_mem _ hd))
    simp [List.takeWhile_cons, List.dropWhile_cons, hc, hrest.1, hrest.2]

/-! ### Lexing a rendered postfix expression -/

theorem consume_ws_id {l : Lexer} {c : Char} {cs : List Char}
    (hrem : l.rem = c :: cs) (hc : pyIsSpace c = false) :
    l.consume_ws = l := by
  cases l with
  | mk rem pos =>
    simp only at hrem
    subst hrem
    simp [Lexer.consume_ws, List.dropWhile_cons, List.takeWhile_cons, hc]

theorem consume_ws_space (cs : List Char) (p : Nat) :
    Lexer.consume_ws ⟨' ' :: cs, p⟩ = Lexer.consume_ws ⟨cs, p + 1⟩ := by
  have hsp : pyIsSpace ' ' = true := by decide
  simp [Lexer.consume_ws, List.dropWhile_cons, List.takeWhile_cons, hsp]
  omega

theorem next_token_congr {l1 l2 : Lexer}
    (h : l1.consume_ws = l2.consume_ws) : l1.next_token = l2.next_token := by
  simp only [Lexer.next_token, h]

theorem next_token_nil (p : Nat) :
    Lexer.next_token ⟨[], p⟩ = (⟨"EOF", Val.vnone, p⟩, ⟨[], p⟩) := rfl

theorem natChars_ne_nil (n : Nat) : natChars n ≠ [] := by
  obtain ⟨ds, hds, hne, _⟩ := natChars_shape n
  rw [hds]
  simpa using hne

/-- Lexing a decimal literal followed by a space: a `NUMBER` token carrying
the literal's value. -/
theorem next_token_number (n : Nat) (rest : List Char) (p : Nat) :
    Lexer.next_token ⟨natChars n ++ ' ' :: rest, p⟩ =
      (⟨"NUMBER", Val.vint (n : Int), p⟩,
        ⟨' ' :: rest, p + (natChars n).length⟩) := by
  obtain ⟨c0, cs0, hnc⟩ : ∃ c0 cs0, natChars n = c0 :: cs0 := by
    cases h : natChars n with
    | nil => exact absurd h (natChars_ne_nil n)
    | cons a b => exact ⟨a, b, rfl⟩
  · have hprops := natChars_props n
    have h0 := hprops c0 (hnc ▸ List.mem_cons_self _ _)
    have hrem : (Lexer.mk (natChars n ++ ' ' :: rest) p).rem =
        c0 :: (cs0 ++ ' ' :: rest) := by
      simp [hnc]
    have hcw := consume_ws_id hrem h0.2.2.2.2
    have hpeek := peek_of_rem_cons hrem
    obtain ⟨htake, hdrop⟩ := takeWhile_append_stop pyIsDigit (natChars n) ' '
      rest (fun c hc => (hprops c hc).1) (by decide)
    simp only [Lexer.next_token, hcw, hpeek]
    rw [if_neg h0.2.2.2.1, if_neg (by simp [h0.2.1, h0.2.2.1]),
      if_pos h0.1]
    simp only [htake, hdrop, intOfDigits_natChars]

/-- Lexing one rendered item off the front of a rendered postfix
expression: the item's token, leaving the separating space ahead of the
rendered remainder. -/
theorem next_token_renderItems (x : PItem) (xs : List PItem) (p : Nat) :
    Lexer.next_token ⟨renderItems (x :: xs), p⟩ =
      (⟨x.tokType, x.tokVal, p⟩,
        ⟨' ' :: renderItems xs, p + x.render.length⟩) := by
  cases x with
  | num n =>
    exact next_token_number n (renderItems xs) p
  | add =>
    show Lexer.next_token ⟨'+' :: ' ' :: renderItems xs, p⟩ =
      ((⟨"ADD", Val.vstr "+", p⟩ : Token),
        (⟨' ' :: renderItems xs, p + 1⟩ : Lexer))
    have hcw : (Lexer.mk ('+' :: ' ' :: renderItems xs) p).consume_ws =
        Lexer.mk ('+' :: ' ' :: renderItems xs) p :=
      consume_ws_id rfl (by decide)
    have hpeek : (Lexer.mk ('+' :: ' ' :: renderItems xs) p).peek = '+' :=
      rfl
    simp only [Lexer.next_token, hcw, hpeek]
    rw [if_neg (by decide), if_neg (by decide), if_neg (by decide)]
    rfl
  | sub =>
    show Lexer.next_token ⟨'-' :: ' ' :: renderItems xs, p⟩ =
      ((⟨"SUB", Val.vstr "-", p⟩ : Token),
        (⟨' ' :: renderItems xs, p + 1⟩ : Lexer))
    have hcw : (Lexer.mk ('-' :: ' ' :: renderItems xs) p).consume_ws =
        Lexer.mk ('-' :: ' ' :: renderItems xs) p :=
      consume_ws_id rfl (by decide)
    have hpeek : (Lexer.mk ('-' :: ' ' :: renderItems xs) p).peek = '-' :=
      rfl
    simp only [Lexer.next_token, hcw, hpeek]
    rw [if_neg (by decide), if_neg (by decide), if_neg (by decide)]
    rfl
  | mul =>
    show Lexer.next_token ⟨'*' :: ' ' :: renderItems xs, p⟩ =
      ((⟨"MUL", Val.vstr "*", p⟩ : Token),
        (⟨' ' :: renderItems xs, p + 1⟩ : Lexer))
    have hcw : (Lexer.mk ('*' :: ' ' :: renderItems xs) p).consume_ws =
        Lexer.mk ('*' :: ' ' :: renderItems xs) p :=
      consume_ws_id rfl (by decide)
    have hpeek : (Lexer.mk ('*' :: ' ' :: renderItems xs) p).peek = '*' :=
      rfl
    simp only [Lexer.next_token, hcw, hpeek]
    rw [if_neg (by decide), if_neg (by decide), if_neg (by decide)]
    rfl
  | div =>
    show Lexer.next_token ⟨'/' :: ' ' :: renderItems xs, p⟩ =
      ((⟨"DIV", Val.vstr "/", p⟩ : Token),
        (⟨' ' :: renderItems xs, p + 1⟩ : Lexer))
    have hcw : (Lexer.mk ('/' :: ' ' :: renderItems xs) p).consume_ws =
        Lexer.mk ('/' :: ' ' :: renderItems xs) p :=
      consume_ws_id rfl (by decide)
    have hpeek : (Lexer.mk ('/' :: ' ' :: renderItems xs) p).peek = '/' :=
      rfl
    simp only [Lexer.next_token, hcw, hpeek]
    rw [if_neg (by decide), if_neg (by decide), if_neg (by decide)]
    rfl

/-! ### Parsing a rendered postfix expression -/

theorem lexer_fetch {p : Parser} {xs : List PItem}
    (hrem : p.lexer.rem = ' ' :: renderItems xs) :
    p.lexer.next_token =
      Lexer.next_token ⟨renderItems xs, p.lexer.pos + 1⟩ := by
  have hl : p.lexer = ⟨' ' :: renderItems xs, p.lexer.pos⟩ := by
    rw [← hrem]
  rw [hl]
  exact next_token_congr (consume_ws_space _ _)

theorem matchTok_item {p : Parser} {x : PItem} {xs : List PItem}
    (hinv : ItemsInv p (x :: xs)) :
    (p.matchTok x.tokType).2.code = p.code ∧
    ItemsInv (p.matchTok x.tokType).2 xs := by
  obtain ⟨htype, hval, hrem⟩ := hinv
  have hfetch := lexer_fetch hrem
  unfold Parser.matchTok
  rw [if_pos htype]
  refine ⟨rfl, ?_⟩
  cases xs with
  | nil =>
    show (p.lexer.next_token).1.type = "EOF"
    rw [hfetch]
    rfl
  | cons y ys =>
    have ht := hfetch.trans (next_token_renderItems y ys (p.lexer.pos + 1))
    refine ⟨?_, ?_, ?_⟩
    · show (p.lexer.next_token).1.type = y.tokType
      rw [ht]
    · show (p.lexer.next_token).1.val = y.tokVal
      rw [ht]
    · show (p.lexer.next_token).2.rem = ' ' :: renderItems ys
      rw [ht]

theorem expression_item {p : Parser} {x : PItem} {xs : List PItem}
    (hinv : ItemsInv p (x :: xs)) :
    ∃ p', p.expression = .ok p' ∧ p'.code = p.code ++ [instrOf x] ∧
      ItemsInv p' xs := by
  obtain ⟨htype, hval, hrem⟩ := hinv
  obtain ⟨hcode_m, hinv_m⟩ :=
    @matchTok_item p x xs ⟨htype, hval, hrem⟩
  cases x <;> simp only [PItem.tokType] at htype hcode_m hinv_m
  case num n =>
    refine ⟨((p.matchTok "NUMBER").2).emit "PUSH" p.cur.val, ?_, ?_, ?_⟩
    · simp [Parser.expression, htype, PItem.tokType]
    · rw [show (((p.matchTok "NUMBER").2).emit "PUSH" p.cur.val).code =
          ((p.matchTok "NUMBER").2).code ++ [⟨"PUSH", p.cur.val⟩] from rfl,
        hcode_m, hval]
      rfl
    · exact hinv_m
  case add =>
    refine ⟨((p.matchTok "ADD").2).emit "ADD" Val.vnone, ?_, ?_, ?_⟩
    · simp [Parser.expression, htype, PItem.tokType]
    · rw [show (((p.matchTok "ADD").2).emit "ADD" Val.vnone).code =
          ((p.matchTok "ADD").2).code ++ [⟨"ADD", Val.vnone⟩] from rfl,
        hcode_m]
      rfl
    · exact hinv_m
  case sub =>
    refine ⟨((p.matchTok "SUB").2).emit "SUB" Val.vnone, ?_, ?_, ?_⟩
    · simp [Parser.expression, htype, PItem.tokType]
    · rw [show (((p.matchTok "SUB").2).emit "SUB" Val.vnone).code =
          ((p.matchTok "SUB").2).code ++ [⟨"SUB", Val.vnone⟩] from rfl,
        hcode_m]
      rfl
    · exact hinv_m
  case mul =>
    refine ⟨((p.matchTok "MUL").2).emit "MUL" Val.vnone, ?_, ?_, ?_⟩
    · simp [Parser.expression, htype, PItem.tokType]
    · rw [show (((p.matchTok "MUL").2).emit "MUL" Val.vnone).code =
          ((p.matchTok "MUL").2).code ++ [⟨"MUL", Val.vnone⟩] from rfl,
        hcode_m]
      rfl
    · exact hinv_m
  case div =>
    refine ⟨((p.matchTok "DIV").2).emit "DIV" Val.vnone, ?_, ?_, ?_⟩
    · simp [Parser.expression, htype, PItem.tokType]
    · rw [show (((p.matchTok "DIV").2).emit "DIV" Val.vnone).code =
          ((p.matchTok "DIV").2).code ++ [⟨"DIV", Val.vnone⟩] from rfl,
        hcode_m]
      rfl
    · exact hinv_m


theorem code_block_items :
    ∀ (xs : List PItem) (p : Parser), ItemsInv p xs →
      ∃ p', p.code_block = .ok p' ∧
        p'.code = p.code ++ xs.map instrOf ∧ p'.cur.type = "EOF" := by
  intro xs
  induction xs with
  | nil =>
    intro p hinv
    refine ⟨p, ?_, by simp, hinv⟩
    rw [code_block_eq,
      if_pos (Or.inr (show p.cur.type = "EOF" from hinv))]
  | cons x rest ih =>
    intro p hinv
    have hne : ¬(p.cur.type = "END" ∨ p.cur.type = "EOF") := by
      rw [hinv.1]
      cases x <;> simp [PItem.tokType]
    obtain ⟨p1, hexp, hcode1, hinv1⟩ := expression_item hinv
    obtain ⟨p', hcb, hcode', heof⟩ := ih p1 hinv1
    refine ⟨p', ?_, ?_, heof⟩
    · rw [code_block_eq, if_neg hne, hexp]
      exact hcb
    · rw [hcode', hcode1]
      simp

/-- Parsing the rendered source text of a postfix expression yields exactly
its item-by-item bytecode followed by the final `HALT`. -/
theorem parse_renderItems (items : List PItem) :
    parse ⟨renderItems items⟩ = .ok (items.map instrOf ++ [haltInstr]) := by
  have hinit : Parser.init (Lexer.init ⟨renderItems items⟩) =
      ⟨((Lexer.mk (renderItems items) 0).next_token).2,
        ((Lexer.mk (renderItems items) 0).next_token).1, []⟩ := rfl
  have hinv : ItemsInv (Parser.init (Lexer.init ⟨renderItems items⟩)) items := by
    cases items with
    | nil =>
      show ((Lexer.mk (renderItems ([] : List PItem)) 0).next_token).1.type =
        "EOF"
      rfl
    | cons x xs =>
      have ht := next_token_renderItems x xs 0
      exact ⟨by rw [hinit]; simp [ht], by rw [hinit]; simp [ht],
        by rw [hinit]; simp [ht]⟩
  obtain ⟨p', hcb, hcode', heof⟩ :=
    code_block_items items (Parser.init (Lexer.init ⟨renderItems items⟩)) hinv
  have hmain : ¬(Parser.init (Lexer.init ⟨renderItems items⟩)).cur.type =
      "MAIN" := by
    cases items with
    | nil =>
      rw [show (Parser.init (Lexer.init ⟨renderItems ([] : List PItem)⟩)).cur.type = "EOF"
        from hinv]
      decide
    | cons x xs =>
      rw [hinv.1]
      cases x <;> simp [PItem.tokType]
  have hexp : p'.expect "EOF" =
      .ok ⟨(p'.lexer.next_token).2, (p'.lexer.next_token).1, p'.code⟩ := by
    unfold Parser.expect Parser.matchTok
    rw [if_pos heof]
    rfl
  show (Parser.init (Lexer.init ⟨renderItems items⟩)).program = _
  unfold Parser.program
  simp only [bind, Except.bind]
  rw [if_neg hmain]
  simp only [hcb, hexp, Parser.emit, hcode']
  simp [haltInstr, Parser.init]

/-! ### Running the compiled postfix expression -/

/-- Executing the compiled form of a postfix expression implements the
reference left-to-right evaluation, then halts on the final `HALT`. -/
theorem run_items :
    ∀ (xs : List PItem) (pre : List Instr) (stack st' : List Int)
      (env : List (String × Int)),
      rpnEval xs stack = some st' →
      VMState.run ⟨pre ++ (xs.map instrOf ++ [haltInstr]), pre.length,
        stack, env⟩ =
        .ok ⟨pre ++ (xs.map instrOf ++ [haltInstr]),
          (pre ++ (xs.map instrOf ++ [haltInstr])).length, st', env⟩ := by
  intro xs
  induction xs with
  | nil =>
    intro pre stack st' env hev
    simp only [rpnEval] at hev
    injection hev with hev
    subst hev
    simp only [List.map_nil, List.nil_append]
    have hstep : VMState.step ⟨pre ++ [haltInstr], pre.length, stack, env⟩ =
        .halted ⟨pre ++ [haltInstr], pre.length + 1, stack, env⟩ := by
      simp [VMState.step, getElem?_append_cons pre haltInstr [], haltInstr]
    rw [run_eq, hstep]
    simp
  | cons x rest ih =>
    intro pre stack st' env hev
    simp only [rpnEval] at hev
    cases hstep0 : rpnStep stack x with
    | none =>
      rw [hstep0] at hev
      exact Option.noConfusion hev
    | some st1 =>
      rw [hstep0] at hev
      have hget : (pre ++ instrOf x :: (List.map instrOf rest ++
          [haltInstr]))[pre.length]? = some (instrOf x) :=
        getElem?_append_cons _ _ _
      have hassoc : pre ++ instrOf x :: (List.map instrOf rest ++
          [haltInstr]) =
          (pre ++ [instrOf x]) ++ (List.map instrOf rest ++ [haltInstr]) := by
        simp
      have hlen : pre.length + 1 = (pre ++ [instrOf x]).length := by
        simp
      cases x with
      | num n =>
        simp only [rpnStep] at hstep0
        injection hstep0 with hstep0
        subst hstep0
        simp only [List.map_cons, List.cons_append]
        have hstep : VMState.step ⟨pre ++ instrOf (PItem.num n) ::
            (List.map instrOf rest ++ [haltInstr]), pre.length, stack, env⟩ =
            .stepped ⟨pre ++ instrOf (PItem.num n) ::
              (List.map instrOf rest ++ [haltInstr]), pre.length + 1,
              (n : Int) :: stack, env⟩ := by
          unfold VMState.step
          rw [hget]
          simp [instrOf]
        rw [run_eq, hstep, hassoc, hlen]
        exact ih (pre ++ [instrOf (PItem.num n)]) ((n : Int) :: stack) st'
          env hev
      | add =>
        match stack, hstep0 with
        | b :: a :: s0, hstep0 =>
          simp only [rpnStep] at hstep0
          injection hstep0 with hstep0
          subst hstep0
          simp only [List.map_cons, List.cons_append]
          have hstep : VMState.step ⟨pre ++ instrOf PItem.add ::
              (List.map instrOf rest ++ [haltInstr]), pre.length,
              b :: a :: s0, env⟩ =
              .stepped ⟨pre ++ instrOf PItem.add ::
                (List.map instrOf rest ++ [haltInstr]), pre.length + 1,
                (a + b) :: s0, env⟩ := by
            unfold VMState.step
            rw [hget]
            simp [instrOf, pop2]
          rw [run_eq, hstep, hassoc, hlen]
          exact ih (pre ++ [instrOf PItem.add]) ((a + b) :: s0) st' env hev
      | sub =>
        match stack, hstep0 with
        | b :: a :: s0, hstep0 =>
          simp only [rpnStep] at hstep0
          injection hstep0 with hstep0
          subst hstep0
          simp only [List.map_cons, List.cons_append]
          have hstep : VMState.step ⟨pre ++ instrOf PItem.sub ::
              (List.map instrOf rest ++ [haltInstr]), pre.length,
              b :: a :: s0, env⟩ =
              .stepped ⟨pre ++ instrOf PItem.sub ::
                (List.map instrOf rest ++ [haltInstr]), pre.length + 1,
                (a - b) :: s0, env⟩ := by
            unfold VMState.step
            rw [hget]
            simp [instrOf, pop2]
          rw [run_eq, hstep, hassoc, hlen]
          exact ih (pre ++ [instrOf PItem.sub]) ((a - b) :: s0) st' env hev
      | mul =>
        match stack, hstep0 with
        | b :: a :: s0, hstep0 =>
          simp only [rpnStep] at hstep0
          injection hstep0 with hstep0
          subst hstep0
          simp only [List.map_cons, List.cons_append]
          have hstep : VMState.step ⟨pre ++ instrOf PItem.mul ::
              (List.map instrOf rest ++ [haltInstr]), pre.length,
              b :: a :: s0, env⟩ =
              .stepped ⟨pre ++ instrOf PItem.mul ::
                (List.map instrOf rest ++ [haltInstr]), pre.length + 1,
                (a * b) :: s0, env⟩ := by
            unfold VMState.step
            rw [hget]
            simp [instrOf, pop2]
          rw [run_eq, hstep, hassoc, hlen]
          exact ih (pre ++ [instrOf PItem.mul]) ((a * b) :: s0) st' env hev
      | div =>
        match stack, hstep0 with
        | b :: a :: s0, hstep0 =>
          by_cases hb : b = 0
          · subst hb
            simp [rpnStep] at hstep0
          · simp only [rpnStep, if_neg hb] at hstep0
            injection hstep0 with hstep0
            subst hstep0
            simp only [List.map_cons, List.cons_append]
            have hstep : VMState.step ⟨pre ++ instrOf PItem.div ::
                (List.map instrOf rest ++ [haltInstr]), pre.length,
                b :: a :: s0, env⟩ =
                .stepped ⟨pre ++ instrOf PItem.div ::
                  (List.map instrOf rest ++ [haltInstr]), pre.length + 1,
                  Int.fdiv a b :: s0, env⟩ := by
              unfold VMState.step
              rw [hget]
              simp [instrOf, pop2, hb]
            rw [run_eq, hstep, hassoc, hlen]
            exact ih (pre ++ [instrOf PItem.div]) (Int.fdiv a b :: s0) st'
              env hev

/-- C1: compiling the rendered source text of any valid postfix expression
of non-negative literals and binary operators (validity and absence of
division by zero expressed as: the reference left-to-right evaluation with
floor division ends with the singleton stack `[v]`) and running the
resulting Program leaves the reference value `v` as the top — in fact the
only element — of the final stack. -/
theorem C1_source_compiles_to_reference_value (items : List PItem) (v : Int)
    (h : rpnEval items [] = some [v]) :
    ∃ s, compile_and_run ⟨renderItems items⟩ = .ok s ∧ s.stack = [v] := by
  have hp := parse_renderItems items
  have hr := run_items items [] [] [v] [] h
  simp only [List.nil_append, List.length_nil] at hr
  unfold compile_and_run
  simp only [hp, VMState.init, hr]
  exact ⟨_, rfl, rfl⟩

/-- C1 witness: the expression `10 3 -` compiles and runs to the final
stack `[7]`. -/
theorem C1_source_compiles_to_reference_value_witness :
    ∃ s, compile_and_run ⟨renderItems [PItem.num 10, PItem.num 3,
      PItem.sub]⟩ = .ok s ∧ s.stack = [7] :=
  C1_source_compiles_to_reference_value
    [PItem.num 10, PItem.num 3, PItem.sub] 7 (by decide)

end Chocoflan
